import Mathlib

/-!
Verification development for `poisson_surface_reconstruction`
(src/src/poisson_surface_reconstruction.cpp).

The C++ core is embedded shallowly over `ℚ` (exact arithmetic standing in for
`double`): point clouds are matrices `Matrix (Fin n) (Fin 3) ℚ`, sparse
matrices are total functions `Matrix (Fin r) (Fin c) ℚ`, and the grid-builder
arithmetic is translated line by line from the source.  The helper routines
`fd_grad` and `fd_interpolate` are declared in headers but their sources are
not part of the repository snapshot; they are modelled from the spec where a
claim needs their content (their doc comments say so).
-/

namespace PoissonRecon

open Matrix

/-- Subscript-to-index map used throughout the code: `ind = i + nx*(j + k*ny)`
(line 55 of the source). -/
def ind (nx ny : ℕ) (i j k : ℕ) : ℕ := i + nx * (j + k * ny)

/-- First component of the inverse of `ind`: `i = r % nx`. -/
def decodeI (nx : ℕ) (r : ℕ) : ℕ := r % nx

/-- Second component of the inverse of `ind`: `j = r / nx % ny`. -/
def decodeJ (nx ny : ℕ) (r : ℕ) : ℕ := r / nx % ny

/-- Third component of the inverse of `ind`: `k = r / (nx*ny)`. -/
def decodeK (nx ny : ℕ) (r : ℕ) : ℕ := r / (nx * ny)

section GridBuilder

variable {n : ℕ} [NeZero n]

/-- `Fin n` is nonempty when `n ≠ 0`; used for the column min/max folds. -/
theorem fin_nonempty {n : ℕ} [NeZero n] : Nonempty (Fin n) :=
  ⟨⟨0, Nat.pos_of_ne_zero (NeZero.ne n)⟩⟩

/-- `P.colwise().maxCoeff()` for column `j`: the maximum of column `j` of `P`. -/
def colMax (P : Matrix (Fin n) (Fin 3) ℚ) (j : Fin 3) : ℚ :=
  Finset.univ.sup' (Finset.univ_nonempty (α := Fin n)) fun i => P i j

/-- `P.colwise().minCoeff()` for column `j`: the minimum of column `j` of `P`. -/
def colMin (P : Matrix (Fin n) (Fin 3) ℚ) (j : Fin 3) : ℚ :=
  Finset.univ.inf' (Finset.univ_nonempty (α := Fin n)) fun i => P i j

/-- Bounding-box side length along axis `j`. -/
def extent (P : Matrix (Fin n) (Fin 3) ℚ) (j : Fin 3) : ℚ :=
  colMax P j - colMin P j

/-- `max_extent = (P.colwise().maxCoeff()-P.colwise().minCoeff()).maxCoeff()`
(source lines 33-34). -/
def maxExtent (P : Matrix (Fin n) (Fin 3) ℚ) : ℚ :=
  Finset.univ.sup' (Finset.univ_nonempty (α := Fin 3)) fun j => extent P j

/-- `const double pad = 8` (source line 36). -/
def pad : ℚ := 8

/-- `double h = max_extent/double(30+2*pad)` (source line 38). -/
def gridH (P : Matrix (Fin n) (Fin 3) ℚ) : ℚ :=
  maxExtent P / (30 + 2 * pad)

/-- `corner = P.colwise().minCoeff().array()-pad*h` (source line 40). -/
def gridCorner (P : Matrix (Fin n) (Fin 3) ℚ) (j : Fin 3) : ℚ :=
  colMin P j - pad * gridH P

/-- The `double` value `std::max((max-min+(2.*pad)*h)/h, 3.)` computed for an
axis dimension before it is stored into the `int` variable (source
lines 42-44). -/
def gridDimQ (P : Matrix (Fin n) (Fin 3) ℚ) (j : Fin 3) : ℚ :=
  max ((colMax P j - colMin P j + (2 * pad) * gridH P) / gridH P) 3

/-- The grid dimension actually stored: assigning the `double` to `int nx`
truncates toward zero; the value is ≥ 3 ≥ 0 so truncation is `Int.floor`
(source lines 42-44). -/
def gridDim (P : Matrix (Fin n) (Fin 3) ℚ) (j : Fin 3) : ℤ :=
  ⌊gridDimQ P j⌋

/-- The spec's reference dimension (§4.1 of the spec, quoted by the claim):
`max(ceil((max(P_axis)-min(P_axis)+2*pad*h)/h), 3)` — rounds UP. -/
def refDimCeil (P : Matrix (Fin n) (Fin 3) ℚ) (j : Fin 3) : ℤ :=
  max ⌈(colMax P j - colMin P j + 2 * pad * gridH P) / gridH P⌉ 3

/-- Reference dimension with truncation in place of `ceil`:
`max(trunc((max(P_axis)-min(P_axis)+2*pad*h)/h), 3)` (the amended form of the
claim; the quotient is nonnegative in all reachable cases so truncation is
`Int.floor`). -/
def refDimTrunc (P : Matrix (Fin n) (Fin 3) ℚ) (j : Fin 3) : ℤ :=
  max ⌊(colMax P j - colMin P j + 2 * pad * gridH P) / gridH P⌋ 3

end GridBuilder

section FoldEval

/-- Expand a `sup'` over `Fin 2`. -/
theorem sup'_univ_fin_two {α : Type} [LinearOrder α] (f : Fin 2 → α) :
    Finset.univ.sup' (Finset.univ_nonempty (α := Fin 2)) f = max (f 0) (f 1) := by
  apply le_antisymm
  · refine Finset.sup'_le _ _ fun i _ => ?_
    fin_cases i
    · exact le_max_left _ _
    · exact le_max_right _ _
  · exact max_le (Finset.le_sup' f (Finset.mem_univ 0)) (Finset.le_sup' f (Finset.mem_univ 1))

/-- Expand a `sup'` over `Fin 3`. -/
theorem sup'_univ_fin_three {α : Type} [LinearOrder α] (f : Fin 3 → α) :
    Finset.univ.sup' (Finset.univ_nonempty (α := Fin 3)) f = max (f 0) (max (f 1) (f 2)) := by
  apply le_antisymm
  · refine Finset.sup'_le _ _ fun i _ => ?_
    fin_cases i
    · exact le_max_left _ _
    · exact le_trans (le_max_left _ _) (le_max_right _ _)
    · exact le_trans (le_max_right _ _) (le_max_right _ _)
  · exact max_le (Finset.le_sup' f (Finset.mem_univ 0))
      (max_le (Finset.le_sup' f (Finset.mem_univ 1)) (Finset.le_sup' f (Finset.mem_univ 2)))

/-- Expand an `inf'` over `Fin 2`. -/
theorem inf'_univ_fin_two {α : Type} [LinearOrder α] (f : Fin 2 → α) :
    Finset.univ.inf' (Finset.univ_nonempty (α := Fin 2)) f = min (f 0) (f 1) := by
  apply le_antisymm
  · exact le_min (Finset.inf'_le f (Finset.mem_univ 0)) (Finset.inf'_le f (Finset.mem_univ 1))
  · refine Finset.le_inf' _ _ fun i _ => ?_
    fin_cases i
    · exact min_le_left _ _
    · exact min_le_right _ _

/-- Expand a `sup'` over `Fin 1`. -/
theorem sup'_univ_fin_one {α : Type} [LinearOrder α] (f : Fin 1 → α) :
    Finset.univ.sup' (Finset.univ_nonempty (α := Fin 1)) f = f 0 := by
  apply le_antisymm
  · refine Finset.sup'_le _ _ fun i _ => ?_
    fin_cases i
    exact le_rfl
  · exact Finset.le_sup' f (Finset.mem_univ 0)

/-- Expand an `inf'` over `Fin 1`. -/
theorem inf'_univ_fin_one {α : Type} [LinearOrder α] (f : Fin 1 → α) :
    Finset.univ.inf' (Finset.univ_nonempty (α := Fin 1)) f = f 0 := by
  apply le_antisymm
  · exact Finset.inf'_le f (Finset.mem_univ 0)
  · refine Finset.le_inf' _ _ fun i _ => ?_
    fin_cases i
    exact le_rfl

end FoldEval

section ConcreteInputs

/-- A concrete two-point cloud: points `(0,0,0)` and `(1, 3/10, 0)`.  Its
`y`-extent makes the dimension quotient fractional, which separates
truncation from rounding up. -/
def P2 : Matrix (Fin 2) (Fin 3) ℚ := Matrix.of ![![0, 0, 0], ![1, 3/10, 0]]

theorem P2_colMin (j : Fin 3) : colMin P2 j = 0 := by
  fin_cases j <;>
    · rw [colMin, inf'_univ_fin_two]
      norm_num [P2]

theorem P2_colMax0 : colMax P2 0 = 1 := by
  rw [colMax, sup'_univ_fin_two]; norm_num [P2]

theorem P2_colMax1 : colMax P2 1 = 3/10 := by
  rw [colMax, sup'_univ_fin_two]; norm_num [P2]

theorem P2_colMax2 : colMax P2 2 = 0 := by
  rw [colMax, sup'_univ_fin_two]; norm_num [P2]

theorem P2_maxExtent : maxExtent P2 = 1 := by
  rw [maxExtent, sup'_univ_fin_three]
  show max (extent P2 0) (max (extent P2 1) (extent P2 2)) = 1
  rw [extent, extent, extent, P2_colMax0, P2_colMax1, P2_colMax2,
    P2_colMin, P2_colMin, P2_colMin]
  norm_num

theorem P2_gridH : gridH P2 = 1/46 := by
  rw [gridH, P2_maxExtent]; norm_num [pad]

end ConcreteInputs

section GridTheorems

/-- Truncation commutes with the `max _ 3` clamp, so the two orders of
operations (clamp-then-truncate as in the code, truncate-then-clamp as the
amended claim reads) agree. -/
theorem floor_max_three (q : ℚ) : ⌊max q 3⌋ = max ⌊q⌋ 3 := by
  rcases le_total q 3 with hq | hq
  · have h1 : ⌊q⌋ ≤ 3 := by
      have h := Int.floor_mono hq
      simpa using h
    rw [max_eq_right hq, max_eq_right h1]
    norm_num
  · have h1 : (3:ℤ) ≤ ⌊q⌋ := Int.le_floor.mpr (by push_cast; exact hq)
    rw [max_eq_left hq, max_eq_left h1]

/-- C1 (counterexample): on the two-point cloud `P2` the code's `y`-dimension
is `29` (the quotient `29.8` is truncated by the `double`-to-`int`
assignment), while the claim's reference algorithm, which rounds up with
`ceil`, gives `30`.  The claim that the built grid equals the
ceil-reference is therefore false. -/
theorem grid_dims_not_ceil : gridDim P2 1 = 29 ∧ refDimCeil P2 1 = 30 := by
  constructor
  · rw [gridDim, gridDimQ, P2_colMax1, P2_colMin, P2_gridH]
    rw [show ((3/10 - 0 + 2 * pad * (1/46)) / (1/46) : ℚ) = 149/5 by norm_num [pad]]
    rw [max_eq_left (by norm_num)]
    norm_num [Int.floor_eq_iff]
  · rw [refDimCeil, P2_colMin, P2_colMax1, P2_gridH]
    rw [show ((3/10 - 0 + 2 * pad * (1/46)) / (1/46) : ℚ) = 149/5 by norm_num [pad]]
    have hc : ⌈(149/5 : ℚ)⌉ = 30 := by
      rw [Int.ceil_eq_iff] <;> norm_num
    rw [hc, max_eq_left (by norm_num)]

/-- C1 (amended): for every point cloud with `n ≥ 1` and positive bounding-box
extent, the grid built by the code equals the reference algorithm with
`pad = 8`, `h = max_extent/(30+2*pad)`, `corner = min(P) - pad*h`, and each
dimension `= max(trunc((max(P_axis)-min(P_axis)+2*pad*h)/h), 3)` — the
per-axis cell count is truncated toward zero by the `double`-to-`int`
assignment, not rounded up with `ceil`. -/
theorem grid_matches_truncated_ref {n : ℕ} [NeZero n] (P : Matrix (Fin n) (Fin 3) ℚ)
    (hext : 0 < maxExtent P) :
    gridH P = maxExtent P / (30 + 2 * pad) ∧
    (∀ j, gridCorner P j = colMin P j - pad * gridH P) ∧
    ∀ j, gridDim P j = refDimTrunc P j := by
  refine ⟨rfl, fun j => rfl, fun j => ?_⟩
  rw [gridDim, gridDimQ, refDimTrunc, floor_max_three]

/-- Witness for `grid_matches_truncated_ref` at the concrete cloud `P2`. -/
theorem grid_matches_truncated_ref_witness :
    0 < maxExtent P2 ∧ ∀ j, gridDim P2 j = refDimTrunc P2 j := by
  have h : 0 < maxExtent P2 := by rw [P2_maxExtent]; norm_num
  exact ⟨h, (grid_matches_truncated_ref P2 h).2.2⟩

/-- C8: for every point cloud with `n ≥ 1` and positive maximum bounding-box
extent, each grid dimension is at least 3 and every input point lies strictly
inside the grid's spatial domain `(corner, corner + h*(dim-1))` per axis. -/
theorem grid_contains_points {n : ℕ} [NeZero n] (P : Matrix (Fin n) (Fin 3) ℚ)
    (hext : 0 < maxExtent P) (i : Fin n) (j : Fin 3) :
    3 ≤ gridDim P j ∧
    gridCorner P j < P i j ∧
    P i j < gridCorner P j + gridH P * ((gridDim P j : ℚ) - 1) := by
  have hpadval : pad = 8 := rfl
  have h0 : 0 < gridH P := div_pos hext (by norm_num [pad])
  have hmin : colMin P j ≤ P i j := by
    rw [colMin]
    exact Finset.inf'_le _ (Finset.mem_univ i)
  have hmax : P i j ≤ colMax P j := by
    rw [colMax]
    exact Finset.le_sup' (fun r => P r j) (Finset.mem_univ i)
  have hd3 : (3:ℤ) ≤ gridDim P j := by
    rw [gridDim]
    exact Int.le_floor.mpr (by push_cast; exact le_max_right _ _)
  refine ⟨hd3, ?_, ?_⟩
  · rw [gridCorner, hpadval]
    nlinarith
  · set hh := gridH P with hhdef
    set q := (colMax P j - colMin P j + 2 * pad * hh) / hh with hqdef
    have hfloor : q - 1 < (gridDim P j : ℚ) := by
      have h1 : gridDimQ P j - 1 < ((⌊gridDimQ P j⌋ : ℤ) : ℚ) := Int.sub_one_lt_floor _
      have h2 : q ≤ gridDimQ P j := le_max_left _ _
      rw [gridDim]
      linarith
    have hqid : hh * q = colMax P j - colMin P j + 2 * pad * hh := by
      rw [hqdef]
      field_simp
    have hmul : hh * (q - 2) < hh * ((gridDim P j : ℚ) - 1) := by
      apply mul_lt_mul_of_pos_left _ h0
      linarith
    have hexpand : hh * (q - 2) = hh * q - 2 * hh := by ring
    have hexpand2 : hh * ((gridDim P j : ℚ) - 1) = hh * (gridDim P j : ℚ) - hh := by ring
    rw [gridCorner, hpadval]
    rw [hpadval] at hqid
    nlinarith

/-- Witness for `grid_contains_points` at the concrete cloud `P2`. -/
theorem grid_contains_points_witness :
    0 < maxExtent P2 ∧
    (3 ≤ gridDim P2 0 ∧
     gridCorner P2 0 < P2 0 0 ∧
     P2 0 0 < gridCorner P2 0 + gridH P2 * ((gridDim P2 0 : ℚ) - 1)) := by
  have h : 0 < maxExtent P2 := by rw [P2_maxExtent]; norm_num
  exact ⟨h, grid_contains_points P2 h 0 0⟩

end GridTheorems

section NodePositions

/-- Position written for subscript `(i,j,k)`:
`corner + h*Eigen::RowVector3d(i,j,k)` (source line 56). -/
def nodePos (corner : Fin 3 → ℚ) (h : ℚ) (i j k : ℕ) : Fin 3 → ℚ :=
  fun a => corner a + h * ![(i : ℚ), (j : ℚ), (k : ℚ)] a

/-- The sequence of `(row index, row value)` writes performed by the triple
loop at source lines 48-59, in loop order (`i` outermost, `k` innermost). -/
def nodeWrites (nx ny nz : ℕ) (corner : Fin 3 → ℚ) (h : ℚ) : List (ℕ × (Fin 3 → ℚ)) :=
  (List.range nx).flatMap fun i =>
    (List.range ny).flatMap fun j =>
      (List.range nz).map fun k =>
        (ind nx ny i j k, nodePos corner h i j k)

/-- The node-position matrix `x` produced by the loop, as a map from row index
to row value.  `x0` models the arbitrary initial contents of the
uninitialized `Eigen::MatrixXd x(nx*ny*nz, 3)`. -/
def buildX (nx ny nz : ℕ) (corner : Fin 3 → ℚ) (h : ℚ) (x0 : ℕ → Fin 3 → ℚ) :
    ℕ → Fin 3 → ℚ :=
  (nodeWrites nx ny nz corner h).foldl (fun x w => Function.update x w.1 w.2) x0

/-- A fold of pointwise writes leaves an index untouched by every write at its
initial value. -/
theorem foldl_update_of_not_mem {β : Type} (l : List (ℕ × β)) (x0 : ℕ → β) (a : ℕ)
    (ha : ∀ p ∈ l, p.1 ≠ a) :
    (l.foldl (fun x w => Function.update x w.1 w.2) x0) a = x0 a := by
  induction l generalizing x0 with
  | nil => rfl
  | cons p t ih =>
    simp only [List.foldl_cons]
    rw [ih _ (fun q hq => ha q (List.mem_cons_of_mem _ hq))]
    exact Function.update_noteq (ha p (List.mem_cons_self _ _)).symm _ _

/-- A fold of pointwise writes stores the value of the unique write at an
index. -/
theorem foldl_update_of_mem {β : Type} (l : List (ℕ × β)) (x0 : ℕ → β) (a : ℕ) (b : β)
    (hmem : (a, b) ∈ l) (huniq : ∀ p ∈ l, p.1 = a → p = (a, b)) :
    (l.foldl (fun x w => Function.update x w.1 w.2) x0) a = b := by
  induction l generalizing x0 with
  | nil => cases hmem
  | cons p t ih =>
    simp only [List.foldl_cons]
    by_cases ht : (a, b) ∈ t
    · exact ih _ ht (fun q hq => huniq q (List.mem_cons_of_mem _ hq))
    · have hp : p = (a, b) := by
        rcases List.mem_cons.mp hmem with hp | hp
        · exact hp.symm
        · exact absurd hp ht
      have hnone : ∀ q ∈ t, q.1 ≠ a := by
        intro q hq hqa
        have hq2 : q = (a, b) := huniq q (List.mem_cons_of_mem _ hq) hqa
        rw [hq2] at hq
        exact ht hq
      rw [foldl_update_of_not_mem t _ a hnone, hp]
      exact Function.update_same _ _ _

/-- Uniqueness of the quotient-remainder decomposition used by `ind`. -/
theorem add_mul_cancel_of_lt {a x y b c : ℕ} (hx : x < a) (hy : y < a)
    (h : x + a * b = y + a * c) : x = y ∧ b = c := by
  have hxm : (x + a * b) % a = x := by
    rw [Nat.add_mul_mod_self_left, Nat.mod_eq_of_lt hx]
  have hym : (y + a * c) % a = y := by
    rw [Nat.add_mul_mod_self_left, Nat.mod_eq_of_lt hy]
  have hxy : x = y := by rw [← hxm, ← hym, h]
  refine ⟨hxy, ?_⟩
  have hbc : a * b = a * c := by omega
  exact Nat.eq_of_mul_eq_mul_left (lt_of_le_of_lt (Nat.zero_le x) hx) hbc

/-- `ind` is injective on in-range subscripts. -/
theorem ind_inj {nx ny nz : ℕ} {i j k i' j' k' : ℕ}
    (hi : i < nx) (hj : j < ny) (hk : k < nz)
    (hi' : i' < nx) (hj' : j' < ny) (hk' : k' < nz)
    (h : ind nx ny i j k = ind nx ny i' j' k') : i = i' ∧ j = j' ∧ k = k' := by
  unfold ind at h
  obtain ⟨h1, h2⟩ := add_mul_cancel_of_lt hi hi' h
  rw [Nat.mul_comm k ny, Nat.mul_comm k' ny] at h2
  obtain ⟨h3, h4⟩ := add_mul_cancel_of_lt hj hj' h2
  exact ⟨h1, h3, h4⟩

/-- `ind` maps in-range subscripts into `[0, nx*ny*nz)`. -/
theorem ind_lt {nx ny nz i j k : ℕ} (hi : i < nx) (hj : j < ny) (hk : k < nz) :
    ind nx ny i j k < nx * ny * nz := by
  unfold ind
  have h1 : 1 + j + k * ny ≤ ny * nz := by
    calc 1 + j + k * ny ≤ ny + k * ny := by omega
    _ = (k + 1) * ny := by ring
    _ ≤ nz * ny := Nat.mul_le_mul_right _ (by omega)
    _ = ny * nz := Nat.mul_comm _ _
  calc i + nx * (j + k * ny) < nx + nx * (j + k * ny) := by omega
  _ = nx * (1 + j + k * ny) := by ring
  _ ≤ nx * (ny * nz) := Nat.mul_le_mul_left _ h1
  _ = nx * ny * nz := (Nat.mul_assoc _ _ _).symm

/-- The subscript-to-index map packaged on `Fin` types. -/
def encode (nx ny nz : ℕ) (s : Fin nx × Fin ny × Fin nz) : Fin (nx * ny * nz) :=
  ⟨ind nx ny s.1 s.2.1 s.2.2, ind_lt s.1.isLt s.2.1.isLt s.2.2.isLt⟩

/-- The subscript-to-index map is a bijection onto `[0, nx*ny*nz)`. -/
theorem encode_bijective (nx ny nz : ℕ) : Function.Bijective (encode nx ny nz) := by
  rw [Fintype.bijective_iff_injective_and_card]
  constructor
  · rintro ⟨i, j, k⟩ ⟨i', j', k'⟩ hs
    have h : ind nx ny i j k = ind nx ny i' j' k' := congrArg Fin.val hs
    obtain ⟨h1, h2, h3⟩ := ind_inj i.isLt j.isLt k.isLt i'.isLt j'.isLt k'.isLt h
    simp only [Prod.mk.injEq]
    exact ⟨Fin.val_injective h1, Fin.val_injective h2, Fin.val_injective h3⟩
  · simp [Fintype.card_prod, Nat.mul_assoc]

/-- Every write of the loop is present in the write list. -/
theorem nodeWrites_mem {nx ny nz : ℕ} (corner : Fin 3 → ℚ) (h : ℚ)
    {i j k : ℕ} (hi : i < nx) (hj : j < ny) (hk : k < nz) :
    (ind nx ny i j k, nodePos corner h i j k) ∈ nodeWrites nx ny nz corner h := by
  unfold nodeWrites
  simp only [List.mem_flatMap, List.mem_map, List.mem_range]
  exact ⟨i, hi, j, hj, k, hk, rfl⟩

/-- Any write in the list targeting index `ind i j k` carries the position of
`(i,j,k)` — distinct loop iterations hit distinct rows. -/
theorem nodeWrites_uniq {nx ny nz : ℕ} (corner : Fin 3 → ℚ) (h : ℚ)
    {i j k : ℕ} (hi : i < nx) (hj : j < ny) (hk : k < nz) :
    ∀ p ∈ nodeWrites nx ny nz corner h, p.1 = ind nx ny i j k →
      p = (ind nx ny i j k, nodePos corner h i j k) := by
  intro p hp hpi
  unfold nodeWrites at hp
  simp only [List.mem_flatMap, List.mem_map, List.mem_range] at hp
  obtain ⟨i', hi', j', hj', k', hk', rfl⟩ := hp
  obtain ⟨h1, h2, h3⟩ := ind_inj hi' hj' hk' hi hj hk hpi
  subst h1; subst h2; subst h3
  rfl

/-- C9: in the node-position matrix built by the triple loop, for every
subscript `(i,j,k)` with `0 ≤ i < nx, 0 ≤ j < ny, 0 ≤ k < nz`, row
`ind = i + nx*(j + k*ny)` holds position `corner + h*(i,j,k)` (for any
initial contents `x0` of the uninitialized matrix — every row is assigned),
and the subscript-to-index map is a bijection onto `[0, nx*ny*nz)`, so each
row is assigned exactly once. -/
theorem node_positions_correct (nx ny nz : ℕ) (corner : Fin 3 → ℚ) (h : ℚ)
    (x0 : ℕ → Fin 3 → ℚ) (i j k : ℕ) (hi : i < nx) (hj : j < ny) (hk : k < nz) :
    buildX nx ny nz corner h x0 (ind nx ny i j k) = nodePos corner h i j k ∧
    Function.Bijective (encode nx ny nz) := by
  refine ⟨?_, encode_bijective nx ny nz⟩
  exact foldl_update_of_mem _ x0 _ _ (nodeWrites_mem corner h hi hj hk)
    (nodeWrites_uniq corner h hi hj hk)

/-- Witness for `node_positions_correct` at a concrete 2×2×2 grid. -/
theorem node_positions_correct_witness :
    buildX 2 2 2 (fun _ => 0) 1 (fun _ _ => 37) (ind 2 2 1 0 1) = nodePos (fun _ => 0) 1 1 0 1 ∧
    Function.Bijective (encode 2 2 2) :=
  node_positions_correct 2 2 2 (fun _ => 0) 1 (fun _ _ => 37) 1 0 1
    (by decide) (by decide) (by decide)

end NodePositions

section InterpolationAndGradient

/-- Cell index along one axis: `floor((p - corner)/h)` clamped to the valid
range `[0, g-2]` (`Int.toNat` clamps negatives to 0).

Modelled from the spec: `fd_interpolate` (§4.2, TrilinearInterpolationOperator)
is declared in `fd_interpolate.h` but its source file is not part of the
repository snapshot; only its call sites are. -/
def cellIdx (g : ℕ) (pc c hh : ℚ) : ℕ :=
  min (Int.toNat ⌊(pc - c) / hh⌋) (g - 2)

/-- Trilinear weight along one axis: the two nodes `i0` and `i0+1` of the
containing cell receive `1-t` and `t`, where `t` is the fractional offset of
the point inside the cell; all other nodes receive 0.

Modelled from the spec: part of `fd_interpolate` (§4.2). -/
def axisWeight (g : ℕ) (pc c hh : ℚ) (i : ℕ) : ℚ :=
  if i = cellIdx g pc c hh then 1 - ((pc - c) / hh - (cellIdx g pc c hh : ℚ))
  else if i = cellIdx g pc c hh + 1 then (pc - c) / hh - (cellIdx g pc c hh : ℚ)
  else 0

/-- Modelled from the spec: `fd_interpolate` (§4.2), whose source file is not
under src/.  Entry `(p, q)` is the trilinear weight of grid node `q` (decoded
as `(q % gx, q / gx % gy, q / (gx*gy))`, the inverse of the index bijection)
for input point `p`: the tensor product of the per-axis weights. -/
def fd_interpolate {n : ℕ} (gx gy gz : ℕ) (hh : ℚ) (c : Fin 3 → ℚ)
    (P : Matrix (Fin n) (Fin 3) ℚ) : Matrix (Fin n) (Fin (gx * gy * gz)) ℚ :=
  fun p q =>
    axisWeight gx (P p 0) (c 0) hh (decodeI gx q) *
    axisWeight gy (P p 1) (c 1) hh (decodeJ gx gy q) *
    axisWeight gz (P p 2) (c 2) hh (decodeK gx gy q)

/-- x-derivative block of the gradient operator: the row of staggered x-node
`(i,j,k)` has `+1/h` at primary node `(i+1,j,k)` and `-1/h` at `(i,j,k)`.

Modelled from the spec: part of `fd_grad` (§4.4, GradientOperator), whose
source file is not under src/. -/
def gradX (nx ny nz : ℕ) (hh : ℚ) :
    Matrix (Fin ((nx-1) * ny * nz)) (Fin (nx * ny * nz)) ℚ :=
  fun r c =>
    if (c : ℕ) = ind nx ny (decodeI (nx-1) r + 1) (decodeJ (nx-1) ny r) (decodeK (nx-1) ny r)
      then 1 / hh
    else if (c : ℕ) = ind nx ny (decodeI (nx-1) r) (decodeJ (nx-1) ny r) (decodeK (nx-1) ny r)
      then -(1 / hh)
    else 0

/-- y-derivative block of the gradient operator.

Modelled from the spec: part of `fd_grad` (§4.4). -/
def gradY (nx ny nz : ℕ) (hh : ℚ) :
    Matrix (Fin (nx * (ny-1) * nz)) (Fin (nx * ny * nz)) ℚ :=
  fun r c =>
    if (c : ℕ) = ind nx ny (decodeI nx r) (decodeJ nx (ny-1) r + 1) (decodeK nx (ny-1) r)
      then 1 / hh
    else if (c : ℕ) = ind nx ny (decodeI nx r) (decodeJ nx (ny-1) r) (decodeK nx (ny-1) r)
      then -(1 / hh)
    else 0

/-- z-derivative block of the gradient operator.

Modelled from the spec: part of `fd_grad` (§4.4). -/
def gradZ (nx ny nz : ℕ) (hh : ℚ) :
    Matrix (Fin (nx * ny * (nz-1))) (Fin (nx * ny * nz)) ℚ :=
  fun r c =>
    if (c : ℕ) = ind nx ny (decodeI nx r) (decodeJ nx ny r) (decodeK nx ny r + 1)
      then 1 / hh
    else if (c : ℕ) = ind nx ny (decodeI nx r) (decodeJ nx ny r) (decodeK nx ny r)
      then -(1 / hh)
    else 0

/-- Modelled from the spec: `fd_grad` (§4.4), whose source file is not under
src/.  Row blocks for x-, y-, z-derivative staggered samples stacked in that
order; the declared shape matches the `Eigen::SparseMatrix` constructed at
source line 86. -/
def fd_grad (nx ny nz : ℕ) (hh : ℚ) :
    Matrix (Fin ((nx-1) * ny * nz + nx * (ny-1) * nz + nx * ny * (nz-1)))
      (Fin (nx * ny * nz)) ℚ :=
  fun r c =>
    Fin.append
      (Fin.append (fun s => gradX nx ny nz hh s c) (fun s => gradY nx ny nz hh s c))
      (fun s => gradZ nx ny nz hh s c) r

end InterpolationAndGradient

section Pipeline

/-- `fd_interpolate(nx-1, ny, nz, h, corner + RowVector3d(h/2,0,0), P, Wx)`
(source line 69). -/
def Wx {n : ℕ} (nx ny nz : ℕ) (h : ℚ) (corner : Fin 3 → ℚ)
    (P : Matrix (Fin n) (Fin 3) ℚ) : Matrix (Fin n) (Fin ((nx-1) * ny * nz)) ℚ :=
  fd_interpolate (nx-1) ny nz h (fun a => corner a + ![h/2, 0, 0] a) P

/-- `fd_interpolate(nx, ny-1, nz, h, corner + RowVector3d(0,h/2,0), P, Wy)`
(source line 70). -/
def Wy {n : ℕ} (nx ny nz : ℕ) (h : ℚ) (corner : Fin 3 → ℚ)
    (P : Matrix (Fin n) (Fin 3) ℚ) : Matrix (Fin n) (Fin (nx * (ny-1) * nz)) ℚ :=
  fd_interpolate nx (ny-1) nz h (fun a => corner a + ![0, h/2, 0] a) P

/-- `fd_interpolate(nx, ny, nz-1, h, corner + RowVector3d(0,0,h/2), P, Wz)`
(source line 71). -/
def Wz {n : ℕ} (nx ny nz : ℕ) (h : ℚ) (corner : Fin 3 → ℚ)
    (P : Matrix (Fin n) (Fin 3) ℚ) : Matrix (Fin n) (Fin (nx * ny * (nz-1))) ℚ :=
  fd_interpolate nx ny (nz-1) h (fun a => corner a + ![0, 0, h/2] a) P

/-- `vx = Wx.transpose() * N.col(0)` (source line 77). -/
def vxStag {n : ℕ} (nx ny nz : ℕ) (h : ℚ) (corner : Fin 3 → ℚ)
    (P N : Matrix (Fin n) (Fin 3) ℚ) : Fin ((nx-1) * ny * nz) → ℚ :=
  (Wx nx ny nz h corner P)ᵀ *ᵥ fun p => N p 0

/-- `vy = Wy.transpose() * N.col(1)` (source line 78). -/
def vyStag {n : ℕ} (nx ny nz : ℕ) (h : ℚ) (corner : Fin 3 → ℚ)
    (P N : Matrix (Fin n) (Fin 3) ℚ) : Fin (nx * (ny-1) * nz) → ℚ :=
  (Wy nx ny nz h corner P)ᵀ *ᵥ fun p => N p 1

/-- `vz = Wz.transpose() * N.col(2)` (source line 79). -/
def vzStag {n : ℕ} (nx ny nz : ℕ) (h : ℚ) (corner : Fin 3 → ℚ)
    (P N : Matrix (Fin n) (Fin 3) ℚ) : Fin (nx * ny * (nz-1)) → ℚ :=
  (Wz nx ny nz h corner P)ᵀ *ᵥ fun p => N p 2

/-- `v << vx, vy, vz` (source lines 81-83): concatenation in x,y,z order. -/
def vStag {n : ℕ} (nx ny nz : ℕ) (h : ℚ) (corner : Fin 3 → ℚ)
    (P N : Matrix (Fin n) (Fin 3) ℚ) :
    Fin ((nx-1) * ny * nz + nx * (ny-1) * nz + nx * ny * (nz-1)) → ℚ :=
  Fin.append
    (Fin.append (vxStag nx ny nz h corner P N) (vyStag nx ny nz h corner P N))
    (vzStag nx ny nz h corner P N)

/-- `solver.compute(G.transpose() * G)` (source line 92): the matrix handed to
the iterative solver. -/
def solverMatrix (nx ny nz : ℕ) (h : ℚ) :
    Matrix (Fin (nx * ny * nz)) (Fin (nx * ny * nz)) ℚ :=
  (fd_grad nx ny nz h)ᵀ * fd_grad nx ny nz h

/-- `g = solver.solve(G.transpose() * v)` (source line 93): the right-hand
side handed to the iterative solver. -/
def solverRhs {n : ℕ} (nx ny nz : ℕ) (h : ℚ) (corner : Fin 3 → ℚ)
    (P N : Matrix (Fin n) (Fin 3) ℚ) : Fin (nx * ny * nz) → ℚ :=
  (fd_grad nx ny nz h)ᵀ *ᵥ vStag nx ny nz h corner P N

/-- `fd_interpolate(nx, ny, nz, h, corner, P, W)` (source line 98): the
primary-grid interpolation matrix used by the iso-value calibration. -/
def Wprim {n : ℕ} (nx ny nz : ℕ) (h : ℚ) (corner : Fin 3 → ℚ)
    (P : Matrix (Fin n) (Fin 3) ℚ) : Matrix (Fin n) (Fin (nx * ny * nz)) ℚ :=
  fd_interpolate nx ny nz h corner P

/-- `double sigma = (W * g).sum() / n` (source line 100). -/
def sigmaIso {n : ℕ} (nx ny nz : ℕ) (h : ℚ) (corner : Fin 3 → ℚ)
    (P : Matrix (Fin n) (Fin 3) ℚ) (g : Fin (nx * ny * nz) → ℚ) : ℚ :=
  (∑ p, (Wprim nx ny nz h corner P *ᵥ g) p) / n

/-- `g = g.array() - sigma` (source line 101). -/
def calibrateG {n : ℕ} (nx ny nz : ℕ) (h : ℚ) (corner : Fin 3 → ℚ)
    (P : Matrix (Fin n) (Fin 3) ℚ) (g : Fin (nx * ny * nz) → ℚ) :
    Fin (nx * ny * nz) → ℚ :=
  fun c => g c - sigmaIso nx ny nz h corner P g

end Pipeline

section StaggeredGrids

/-- Grid geometry from the spec's data model (§3): integer dimensions, scalar
spacing, minimum-corner position. -/
structure Grid where
  dims : Fin 3 → ℕ
  spacing : ℚ
  corner : Fin 3 → ℚ

/-- StaggeredGrid for axis `a` (spec §3): the dimension along axis `a` is
reduced by one and the corner is shifted by `h/2` along axis `a`. -/
def staggered (g : Grid) (a : Fin 3) : Grid where
  dims := fun b => if b = a then g.dims b - 1 else g.dims b
  spacing := g.spacing
  corner := fun b => g.corner b + if b = a then g.spacing / 2 else 0

/-- Number of grid nodes. -/
def Grid.nodeCount (g : Grid) : ℕ := g.dims 0 * g.dims 1 * g.dims 2

/-- InterpolationMatrix of an arbitrary grid against a point set: the single
interpolation routine parameterized by grid geometry (spec §4.2). -/
def interpMatrix {n : ℕ} (g : Grid) (P : Matrix (Fin n) (Fin 3) ℚ) :
    Matrix (Fin n) (Fin g.nodeCount) ℚ :=
  fd_interpolate (g.dims 0) (g.dims 1) (g.dims 2) g.spacing g.corner P

/-- The primary grid assembled from the code's `nx, ny, nz, h, corner`. -/
def primaryGrid (nx ny nz : ℕ) (h : ℚ) (corner : Fin 3 → ℚ) : Grid :=
  ⟨![nx, ny, nz], h, corner⟩

/-- C3: for each axis the pipeline builds the staggered grid (dimension along
that axis reduced by one, corner shifted by `h/2` along that axis), builds
that grid's interpolation matrix against `P`, sets
`v_a = transpose(W_a) * N[:,a]`, and `v` is exactly the concatenation of
`vx, vy, vz` in that fixed order. -/
theorem staggered_projection_matches {n : ℕ} (nx ny nz : ℕ) (h : ℚ)
    (corner : Fin 3 → ℚ) (P N : Matrix (Fin n) (Fin 3) ℚ) :
    Wx nx ny nz h corner P = interpMatrix (staggered (primaryGrid nx ny nz h corner) 0) P ∧
    Wy nx ny nz h corner P = interpMatrix (staggered (primaryGrid nx ny nz h corner) 1) P ∧
    Wz nx ny nz h corner P = interpMatrix (staggered (primaryGrid nx ny nz h corner) 2) P ∧
    vxStag nx ny nz h corner P N = (Wx nx ny nz h corner P)ᵀ *ᵥ (fun p => N p 0) ∧
    vyStag nx ny nz h corner P N = (Wy nx ny nz h corner P)ᵀ *ᵥ (fun p => N p 1) ∧
    vzStag nx ny nz h corner P N = (Wz nx ny nz h corner P)ᵀ *ᵥ (fun p => N p 2) ∧
    vStag nx ny nz h corner P N =
      Fin.append
        (Fin.append (vxStag nx ny nz h corner P N) (vyStag nx ny nz h corner P N))
        (vzStag nx ny nz h corner P N) := by
  refine ⟨?_, ?_, ?_, rfl, rfl, rfl, rfl⟩
  · have hc : (fun a => corner a + ![h/2, 0, 0] a) =
        (fun b => corner b + if b = (0 : Fin 3) then h / 2 else 0) := by
      funext a
      fin_cases a <;> simp
    show fd_interpolate (nx-1) ny nz h (fun a => corner a + ![h/2, 0, 0] a) P =
      fd_interpolate (nx-1) ny nz h (fun b => corner b + if b = 0 then h / 2 else 0) P
    rw [hc]
  · have hc : (fun a => corner a + ![0, h/2, 0] a) =
        (fun b => corner b + if b = (1 : Fin 3) then h / 2 else 0) := by
      funext a
      fin_cases a <;> simp
    show fd_interpolate nx (ny-1) nz h (fun a => corner a + ![0, h/2, 0] a) P =
      fd_interpolate nx (ny-1) nz h (fun b => corner b + if b = 1 then h / 2 else 0) P
    rw [hc]
  · have hc : (fun a => corner a + ![0, 0, h/2] a) =
        (fun b => corner b + if b = (2 : Fin 3) then h / 2 else 0) := by
      funext a
      fin_cases a <;> simp
    show fd_interpolate nx ny (nz-1) h (fun a => corner a + ![0, 0, h/2] a) P =
      fd_interpolate nx ny (nz-1) h (fun b => corner b + if b = 2 then h / 2 else 0) P
    rw [hc]

/-- C4: the gradient matrix has row blocks for x-, y-, z-derivative samples
stacked in that order, whose row ranges coincide exactly with the slices of
the concatenated staggered vector `v`: for each staggered node `s` of a
block, row `s` (at its block offset) of `G` is the corresponding
finite-difference row and the entry of `v` at the same offset is the
corresponding entry of `vx`/`vy`/`vz`; the row and column counts are
`(nx-1)*ny*nz + nx*(ny-1)*nz + nx*ny*(nz-1)` and `nx*ny*nz`. -/
theorem gradient_blocks_match_v {n : ℕ} (nx ny nz : ℕ) (h : ℚ)
    (corner : Fin 3 → ℚ) (P N : Matrix (Fin n) (Fin 3) ℚ) :
    Fintype.card (Fin ((nx-1) * ny * nz + nx * (ny-1) * nz + nx * ny * (nz-1))) =
      (nx-1) * ny * nz + nx * (ny-1) * nz + nx * ny * (nz-1) ∧
    Fintype.card (Fin (nx * ny * nz)) = nx * ny * nz ∧
    (∀ s : Fin ((nx-1) * ny * nz),
      (∀ c, fd_grad nx ny nz h (Fin.castAdd _ (Fin.castAdd _ s)) c = gradX nx ny nz h s c) ∧
      vStag nx ny nz h corner P N (Fin.castAdd _ (Fin.castAdd _ s)) =
        vxStag nx ny nz h corner P N s) ∧
    (∀ s : Fin (nx * (ny-1) * nz),
      (∀ c, fd_grad nx ny nz h (Fin.castAdd _ (Fin.natAdd _ s)) c = gradY nx ny nz h s c) ∧
      vStag nx ny nz h corner P N (Fin.castAdd _ (Fin.natAdd _ s)) =
        vyStag nx ny nz h corner P N s) ∧
    (∀ s : Fin (nx * ny * (nz-1)),
      (∀ c, fd_grad nx ny nz h (Fin.natAdd _ s) c = gradZ nx ny nz h s c) ∧
      vStag nx ny nz h corner P N (Fin.natAdd _ s) =
        vzStag nx ny nz h corner P N s) := by
  refine ⟨Fintype.card_fin _, Fintype.card_fin _, fun s => ⟨fun c => ?_, ?_⟩,
    fun s => ⟨fun c => ?_, ?_⟩, fun s => ⟨fun c => ?_, ?_⟩⟩
  · show Fin.append _ _ (Fin.castAdd _ (Fin.castAdd _ s)) = _
    rw [Fin.append_left, Fin.append_left]
  · show Fin.append _ _ (Fin.castAdd _ (Fin.castAdd _ s)) = _
    rw [Fin.append_left, Fin.append_left]
  · show Fin.append _ _ (Fin.castAdd _ (Fin.natAdd _ s)) = _
    rw [Fin.append_left, Fin.append_right]
  · show Fin.append _ _ (Fin.castAdd _ (Fin.natAdd _ s)) = _
    rw [Fin.append_left, Fin.append_right]
  · show Fin.append _ _ (Fin.natAdd _ s) = _
    rw [Fin.append_right]
  · show Fin.append _ _ (Fin.natAdd _ s) = _
    rw [Fin.append_right]

end StaggeredGrids

section LeastSquares

/-- Squared Euclidean norm of a vector. -/
def normSq {m : ℕ} (u : Fin m → ℚ) : ℚ := u ⬝ᵥ u

/-- A sum of squares is nonnegative. -/
theorem normSq_nonneg {m : ℕ} (u : Fin m → ℚ) : 0 ≤ normSq u :=
  Finset.sum_nonneg fun i _ => mul_self_nonneg (u i)

/-- Any solution of the normal equations `(AᵀA)g = Aᵀb` minimizes
`‖A·g − b‖²`. -/
theorem normal_eq_minimizes {m k : ℕ} (A : Matrix (Fin m) (Fin k) ℚ) (b : Fin m → ℚ)
    (g : Fin k → ℚ) (hg : (Aᵀ * A) *ᵥ g = Aᵀ *ᵥ b) (y : Fin k → ℚ) :
    normSq (A *ᵥ g - b) ≤ normSq (A *ᵥ y - b) := by
  set r := A *ᵥ g - b with hr
  set e := A *ᵥ (y - g) with he
  have hAy : A *ᵥ y - b = r + e := by
    rw [hr, he, Matrix.mulVec_sub]
    abel
  have hAtr : Aᵀ *ᵥ r = 0 := by
    rw [hr, Matrix.mulVec_sub, Matrix.mulVec_mulVec, hg]
    simp
  have horth : r ⬝ᵥ e = 0 := by
    rw [he, Matrix.dotProduct_mulVec, ← Matrix.mulVec_transpose, hAtr]
    simp
  have hexpand : normSq (r + e) = normSq r + 2 * (r ⬝ᵥ e) + normSq e := by
    unfold normSq
    rw [add_dotProduct, dotProduct_add, dotProduct_add, dotProduct_comm e r]
    ring
  rw [hAy, hexpand, horth]
  have := normSq_nonneg e
  linarith

/-- C2: the iterative solver is applied to the matrix `GᵀG` and right-hand
side `Gᵀv` — the normal equations of `min ‖G·g − v‖²` — so any `g` solving
the system handed to the solver minimizes `‖G·g − v‖²` (the minimizer is
determined only up to the kernel of `G`; no constraint beyond the normal
equations is imposed by the solve step). -/
theorem solver_solves_normal_equations {n : ℕ} (nx ny nz : ℕ) (h : ℚ)
    (corner : Fin 3 → ℚ) (P N : Matrix (Fin n) (Fin 3) ℚ) :
    solverMatrix nx ny nz h = (fd_grad nx ny nz h)ᵀ * fd_grad nx ny nz h ∧
    solverRhs nx ny nz h corner P N =
      (fd_grad nx ny nz h)ᵀ *ᵥ vStag nx ny nz h corner P N ∧
    ∀ g : Fin (nx * ny * nz) → ℚ,
      solverMatrix nx ny nz h *ᵥ g = solverRhs nx ny nz h corner P N →
      ∀ y : Fin (nx * ny * nz) → ℚ,
        normSq (fd_grad nx ny nz h *ᵥ g - vStag nx ny nz h corner P N) ≤
        normSq (fd_grad nx ny nz h *ᵥ y - vStag nx ny nz h corner P N) :=
  ⟨rfl, rfl, fun g hg y => normal_eq_minimizes _ _ g hg y⟩

/-- Witness for `solver_solves_normal_equations` on the degenerate `1×1×1`
grid with a single zero point and zero normals, where `g = 0` solves the
normal equations. -/
theorem solver_solves_normal_equations_witness :
    (solverMatrix 1 1 1 1 *ᵥ (fun _ => 0) =
      solverRhs 1 1 1 1 (fun _ => 0) (Matrix.of ![![0,0,0]]) (Matrix.of ![![0,0,0]])) ∧
    normSq (fd_grad 1 1 1 1 *ᵥ (fun _ => 0) -
        vStag 1 1 1 1 (fun _ => 0) (Matrix.of ![![0,0,0]]) (Matrix.of ![![0,0,0]])) ≤
      normSq (fd_grad 1 1 1 1 *ᵥ (fun _ => 0) -
        vStag 1 1 1 1 (fun _ => 0) (Matrix.of ![![0,0,0]]) (Matrix.of ![![0,0,0]])) := by
  have hsolve : solverMatrix 1 1 1 1 *ᵥ (fun _ => 0) =
      solverRhs 1 1 1 1 (fun _ => 0) (Matrix.of ![![0,0,0]]) (Matrix.of ![![0,0,0]]) := by
    funext i
    simp [solverMatrix, solverRhs, Matrix.mulVec, dotProduct]
  exact ⟨hsolve,
    (solver_solves_normal_equations 1 1 1 1 (fun _ => 0)
      (Matrix.of ![![0,0,0]]) (Matrix.of ![![0,0,0]])).2.2
      (fun _ => 0) hsolve (fun _ => 0)⟩

end LeastSquares

section Calibration

/-- C5: the calibration step computes `sigma = mean(W·g)` with `W` the
primary-grid interpolation matrix against the input points, subtracts it
uniformly from `g`, and afterwards `mean(W·g)` over the input points is
exactly 0 whenever every row of `W` sums to 1 (exact arithmetic). -/
theorem calibration_zeroes_mean {n : ℕ} [NeZero n] (nx ny nz : ℕ) (h : ℚ)
    (corner : Fin 3 → ℚ) (P : Matrix (Fin n) (Fin 3) ℚ)
    (g : Fin (nx * ny * nz) → ℚ)
    (hrow : ∀ p, ∑ q, Wprim nx ny nz h corner P p q = 1) :
    sigmaIso nx ny nz h corner P g =
      (∑ p, (Wprim nx ny nz h corner P *ᵥ g) p) / n ∧
    (∑ p, (Wprim nx ny nz h corner P *ᵥ calibrateG nx ny nz h corner P g) p) / n = 0 := by
  refine ⟨rfl, ?_⟩
  have hn : (n : ℚ) ≠ 0 := Nat.cast_ne_zero.mpr (NeZero.ne n)
  have hWrow : ∀ p, (Wprim nx ny nz h corner P *ᵥ calibrateG nx ny nz h corner P g) p =
      (Wprim nx ny nz h corner P *ᵥ g) p - sigmaIso nx ny nz h corner P g := by
    intro p
    show (∑ q, Wprim nx ny nz h corner P p q * calibrateG nx ny nz h corner P g q) =
      (∑ q, Wprim nx ny nz h corner P p q * g q) - sigmaIso nx ny nz h corner P g
    unfold calibrateG
    rw [show (∑ q, Wprim nx ny nz h corner P p q * (g q - sigmaIso nx ny nz h corner P g)) =
        (∑ q, Wprim nx ny nz h corner P p q * g q) -
          (∑ q, Wprim nx ny nz h corner P p q) * sigmaIso nx ny nz h corner P g by
      rw [Finset.sum_mul]
      rw [← Finset.sum_sub_distrib]
      congr 1
      funext q
      ring]
    rw [hrow p, one_mul]
  calc (∑ p, (Wprim nx ny nz h corner P *ᵥ calibrateG nx ny nz h corner P g) p) / n
      = (∑ p, ((Wprim nx ny nz h corner P *ᵥ g) p - sigmaIso nx ny nz h corner P g)) / n := by
        congr 1
        exact Finset.sum_congr rfl fun p _ => hWrow p
    _ = ((∑ p, (Wprim nx ny nz h corner P *ᵥ g) p) -
          n * sigmaIso nx ny nz h corner P g) / n := by
        rw [Finset.sum_sub_distrib, Finset.sum_const, Finset.card_univ, Fintype.card_fin,
          nsmul_eq_mul]
    _ = 0 := by
        rw [sigmaIso]
        field_simp

/-- Witness for `calibration_zeroes_mean`: one point at the grid corner of a
`2×2×2` unit grid, whose interpolation row is the indicator of node 0 and
sums to 1. -/
theorem calibration_zeroes_mean_witness :
    (∀ p : Fin 1, ∑ q, Wprim 2 2 2 1 (fun _ => 0) (Matrix.of ![![0,0,0]]) p q = 1) ∧
    (∑ p, (Wprim 2 2 2 1 (fun _ => 0) (Matrix.of ![![0,0,0]]) *ᵥ
      calibrateG 2 2 2 1 (fun _ => 0) (Matrix.of ![![0,0,0]]) (fun _ => 1)) p) / (1:ℕ) = 0 := by
  have hrow : ∀ p : Fin 1, ∑ q, Wprim 2 2 2 1 (fun _ => 0) (Matrix.of ![![0,0,0]]) p q = 1 := by
    intro p
    fin_cases p
    show (∑ q : Fin (2*2*2), fd_interpolate 2 2 2 1 (fun _ => 0) (Matrix.of ![![0,0,0]]) 0 q) = 1
    rw [Fin.sum_univ_eight]
    simp [fd_interpolate, axisWeight, cellIdx, decodeI, decodeJ, decodeK]
    norm_num [show ((3 : Fin (2*2*2)) : ℕ) = 3 from rfl,
      show ((4 : Fin (2*2*2)) : ℕ) = 4 from rfl,
      show ((5 : Fin (2*2*2)) : ℕ) = 5 from rfl,
      show ((6 : Fin (2*2*2)) : ℕ) = 6 from rfl,
      show ((7 : Fin (2*2*2)) : ℕ) = 7 from rfl]
  exact ⟨hrow,
    (calibration_zeroes_mean 2 2 2 1 (fun _ => 0) (Matrix.of ![![0,0,0]])
      (fun _ => 1) hrow).2⟩

end Calibration

section FullPipeline

/-- A triangle mesh: vertex positions and faces, the `(V, F)` output pair. -/
structure Mesh where
  V : List (Fin 3 → ℚ)
  F : List (Fin 3 → ℕ)

/-- Abstract model of the external `Eigen::BiCGSTAB` solver: from a system
matrix and right-hand side it returns an iterate together with the
convergence status (`info() == Eigen::Success`).  Only the interface is
modelled; the code under verification decides what it does with the pair. -/
structure Solver where
  solve : (m : ℕ) → Matrix (Fin m) (Fin m) ℚ → (Fin m → ℚ) → (Fin m → ℚ) × Bool

/-- Abstract model of the external `igl::copyleft::marching_cubes`
collaborator (spec §6: treated as a pure function of the field values, node
positions and grid dimensions). -/
structure Extractor where
  extract : (total : ℕ) → (Fin total → ℚ) → (ℕ → Fin 3 → ℚ) → ℕ → ℕ → ℕ → Mesh

/-- The whole `poisson_surface_reconstruction` body (source lines 24-108),
parameterized by the two external collaborators.  `VF0` is the prior
contents of the caller's output matrices `V, F`; the source reads `V` and
`F` nowhere and writes them only through the final `marching_cubes` call.
The C++ function returns `void` and contains no `throw`, no `assert` and no
conditional: the embedding is correspondingly total, with no error value.
The solver's convergence status (`.2` of the returned pair) is never
inspected — `solver.info()` does not occur in the source. -/
def poissonCore {n : ℕ} [NeZero n] (solver : Solver) (mc : Extractor)
    (P N : Matrix (Fin n) (Fin 3) ℚ) (VF0 : Mesh) : Mesh :=
  let nx := (gridDim P 0).toNat
  let ny := (gridDim P 1).toNat
  let nz := (gridDim P 2).toNat
  let h := gridH P
  let corner := gridCorner P
  let x := buildX nx ny nz corner h fun _ _ => 0
  let out := solver.solve (nx * ny * nz) (solverMatrix nx ny nz h)
    (solverRhs nx ny nz h corner P N)
  let g := out.1
  let gcal := calibrateG nx ny nz h corner P g
  mc.extract (nx * ny * nz) gcal x nx ny nz

/-- The empty mesh. -/
def mesh0 : Mesh := ⟨[], []⟩

/-- An extractor returning the empty mesh, for concrete instantiations. -/
def emptyExtractor : Extractor := ⟨fun _ _ _ _ _ _ => mesh0⟩

/-- A solver returning the zero iterate and reporting convergence. -/
def zeroSolverConverged : Solver := ⟨fun _ _ _ => (fun _ => 0, true)⟩

/-- A solver returning the zero iterate and reporting *non*-convergence
(iteration cap exceeded). -/
def zeroSolverFailed : Solver := ⟨fun _ _ _ => (fun _ => 0, false)⟩

/-- A single-point cloud at the origin. -/
def P1 : Matrix (Fin 1) (Fin 3) ℚ := fun _ _ => 0

/-- A single-point cloud at an arbitrary position `p`. -/
def rowP (p : Fin 3 → ℚ) : Matrix (Fin 1) (Fin 3) ℚ := fun _ j => p j

/-- C6 (counterexample): with the solver reporting non-convergence the
pipeline produces exactly the same mesh, by running calibration and
extraction on the returned iterate, as with a solver reporting success —
no distinct `SolverNonConvergence` failure exists (the return type has no
failure case, mirroring the `void` C++ function, and `solver.info()` is
never read). -/
theorem nonconvergence_not_surfaced :
    poissonCore zeroSolverFailed emptyExtractor P1 P1 mesh0 =
      poissonCore zeroSolverConverged emptyExtractor P1 P1 mesh0 := rfl

/-- C6 (amended): the code never inspects the solver's convergence status:
for any two solvers returning the same iterates, possibly with opposite
convergence reports, the reconstruction output is identical, and it is
always the result of running calibration and mesh extraction on the
returned iterate. -/
theorem solver_convergence_flag_ignored {n : ℕ} [NeZero n] (s1 s2 : Solver)
    (mc : Extractor) (P N : Matrix (Fin n) (Fin 3) ℚ) (VF : Mesh)
    (hiter : ∀ m A b, (s1.solve m A b).1 = (s2.solve m A b).1) :
    poissonCore s1 mc P N VF = poissonCore s2 mc P N VF := by
  simp only [poissonCore, hiter]

/-- Witness for `solver_convergence_flag_ignored` with a converged and a
failed solver sharing the zero iterate. -/
theorem solver_convergence_flag_ignored_witness :
    poissonCore zeroSolverConverged emptyExtractor P1 P1 mesh0 =
      poissonCore zeroSolverFailed emptyExtractor P1 P1 mesh0 :=
  solver_convergence_flag_ignored zeroSolverConverged zeroSolverFailed
    emptyExtractor P1 P1 mesh0 fun _ _ _ => rfl

/-- C7 (counterexample): on the single-point cloud `P1` (`n = 1`, zero
bounding-box extent) the code raises nothing — the embedding, like the
`void` C++ body, has no validation and no error channel and unconditionally
proceeds to grid construction — and the grid spacing it computes is exactly
`0` (the C++ computes `h = 0.0/46.0 = 0.0` and then divides by it), not a
surfaced `DegenerateGrid`/`InvalidInput` error. -/
theorem no_input_validation_cex : maxExtent P1 = 0 ∧ gridH P1 = 0 := by
  have hext : maxExtent P1 = 0 := by
    rw [maxExtent, sup'_univ_fin_three]
    show max (extent P1 0) (max (extent P1 1) (extent P1 2)) = 0
    simp only [extent,
      show ∀ j, colMax P1 j = 0 from fun j => by
        rw [colMax, sup'_univ_fin_one]; rfl,
      show ∀ j, colMin P1 j = 0 from fun j => by
        rw [colMin, inf'_univ_fin_one]; rfl]
    norm_num
  refine ⟨hext, ?_⟩
  rw [gridH, hext]
  norm_num

/-- C7 (amended): the code performs no input validation and has no error
channel at all (`void` return, no exceptions, no conditionals): for any
single-point cloud the bounding box has zero extent, the spacing `h` is
computed as exactly `0` — so the subsequent per-axis dimension computation
divides by zero (NaN under IEEE doubles) — and the corner degenerates to the
point itself; execution proceeds to grid construction regardless. -/
theorem single_point_no_error (p : Fin 3 → ℚ) :
    maxExtent (rowP p) = 0 ∧ gridH (rowP p) = 0 ∧
    ∀ j, gridCorner (rowP p) j = p j := by
  have hminmax : ∀ j, colMax (rowP p) j = p j ∧ colMin (rowP p) j = p j := by
    intro j
    constructor
    · rw [colMax, sup'_univ_fin_one]; rfl
    · rw [colMin, inf'_univ_fin_one]; rfl
  have hext : maxExtent (rowP p) = 0 := by
    rw [maxExtent, sup'_univ_fin_three]
    show max (extent (rowP p) 0) (max (extent (rowP p) 1) (extent (rowP p) 2)) = 0
    rw [extent, extent, extent, (hminmax 0).1, (hminmax 0).2, (hminmax 1).1,
      (hminmax 1).2, (hminmax 2).1, (hminmax 2).2]
    norm_num
  have hh : gridH (rowP p) = 0 := by
    rw [gridH, hext]
    norm_num
  refine ⟨hext, hh, fun j => ?_⟩
  rw [gridCorner, (hminmax j).2, hh]
  norm_num

/-- C10: the reconstruction never reads its output parameters: the result is
independent of the prior contents of `V` and `F`, which are fully
overwritten by the final extraction call.  The embedding is a pure function
of `P`, `N` and the two external collaborators — the inputs are taken by
`const` reference in the source and only read, and no state outlives a
call. -/
theorem outputs_independent_of_prior {n : ℕ} [NeZero n] (solver : Solver)
    (mc : Extractor) (P N : Matrix (Fin n) (Fin 3) ℚ) (a b : Mesh) :
    poissonCore solver mc P N a = poissonCore solver mc P N b := rfl

/-- Witness for `outputs_independent_of_prior` with two different prior
contents. -/
theorem outputs_independent_of_prior_witness :
    poissonCore zeroSolverConverged emptyExtractor P1 P1 mesh0 =
      poissonCore zeroSolverConverged emptyExtractor P1 P1
        ⟨[fun _ => 37], [fun _ => 0]⟩ :=
  outputs_independent_of_prior zeroSolverConverged emptyExtractor P1 P1
    mesh0 ⟨[fun _ => 37], [fun _ => 0]⟩

end FullPipeline

end PoissonRecon
